import Mathlib

/-!
Verification development for the `biome-setup` CLI (src/index.js).

The file contains a shallow embedding of the parts of the program the
claims are about:

* the ESLint directive-comment scrubber (`ESLINT_DIRECTIVE_PATTERNS`,
  `stripEslintCommentsFromContent`, `walkAndCleanComments`),
* package-manager detection (`findUpwards`, `detectPackageManager`),
* legacy-tool detection (`findLegacyTools`),
* manifest mutation (`cleanEslintPrettierConfig`, `updatePackageJsonScripts`),
* manifest reading and error classification (`readPackageJson`, the catch block of `main`).

Strings are modelled as Lean `String` / `List Char`; JavaScript regular
expressions are modelled by hand-written matchers that reproduce the exact
match semantics of the eight fixed directive patterns.
-/

namespace BiomeSetup

/-! ## JavaScript regular-expression primitives for the directive patterns -/

/-- JavaScript `\s` (WhiteSpace ∪ LineTerminator) as used by the directive
regexes: space, tab, LF, VT, FF, CR, NBSP, Ogham space, the U+2000..U+200A
range, LS, PS, NNBSP, MMSP, ideographic space and the BOM. -/
def isJsWhitespace (c : Char) : Bool :=
  let n := c.toNat
  n == 0x20 || n == 0x09 || n == 0x0A || n == 0x0B || n == 0x0C || n == 0x0D ||
  n == 0xA0 || n == 0x1680 || (0x2000 ≤ n && n ≤ 0x200A) || n == 0x2028 ||
  n == 0x2029 || n == 0x202F || n == 0x205F || n == 0x3000 || n == 0xFEFF

/-- Consume the literal `lit` from the front of `s`; return the remainder. -/
def dropLit : List Char → List Char → Option (List Char)
  | [], s => some s
  | _ :: _, [] => none
  | p :: ps, c :: cs => if c = p then dropLit ps cs else none

/-- Maximal munch of `\s*`.  All directive patterns follow `\s*` with the
letter `e`, which is not whitespace, so greedy matching without backtracking
is exact. -/
def dropWs : List Char → List Char
  | [] => []
  | c :: cs => if isJsWhitespace c then dropWs cs else c :: cs

/-- Lazy `[\s\S]*?\*\/`: skip to the first `*/` and consume it. -/
def skipToBlockClose : List Char → Option (List Char)
  | [] => none
  | '*' :: '/' :: rest => some rest
  | _ :: rest => skipToBlockClose rest

/-- Skip to the first `*` and consume it (the `[^*]*\*` part of the generic
block pattern; `[^*]` cannot cross a star, so the first star is the only
candidate). -/
def skipToStar : List Char → Option (List Char)
  | [] => none
  | '*' :: rest => some rest
  | _ :: rest => skipToStar rest

/-- Matcher for `/\*\s*<lit>[\s\S]*?\*\//` (patterns 1–3 of
`ESLINT_DIRECTIVE_PATTERNS`).  Returns the suffix after a match starting at
the head of `s`. -/
def matchBlockDirective (lit : List Char) (s : List Char) : Option (List Char) :=
  match dropLit ['/', '*'] s with
  | none => none
  | some s1 =>
    match dropLit lit (dropWs s1) with
    | none => none
    | some s2 => skipToBlockClose s2

/-- Matcher for `/\*\s*eslint\s+[^*]*\*\//` (pattern 4).  After the literal
`eslint` there must be at least one whitespace character; `\s+[^*]*` together
match any non-star run whose first character is whitespace, and the run must
be closed by `*/` at the first star. -/
def matchBlockGeneric (s : List Char) : Option (List Char) :=
  match dropLit ['/', '*'] s with
  | none => none
  | some s1 =>
    match dropLit ('e' :: 's' :: 'l' :: 'i' :: 'n' :: 't' :: []) (dropWs s1) with
    | none => none
    | some s2 =>
      match s2 with
      | [] => none
      | c :: rest =>
        if isJsWhitespace c then
          match skipToStar rest with
          | some ('/' :: r2) => some r2
          | _ => none
        else none

/-- Matcher for `//\s*<lit>[^\n\r]*` (patterns 5–8): line directives consume
to the end of the line (exclusive of the terminator). -/
def matchLineDirective (lit : List Char) (s : List Char) : Option (List Char) :=
  match dropLit ['/', '/'] s with
  | none => none
  | some s1 =>
    match dropLit lit (dropWs s1) with
    | none => none
    | some s2 => some (s2.dropWhile (fun c => !(c == '\n') && !(c == '\r')))

/-- The fixed ordered pattern list `ESLINT_DIRECTIVE_PATTERNS`, as matchers. -/
def eslintDirectivePatterns : List (List Char → Option (List Char)) :=
  [ matchBlockDirective "eslint-disable".data
  , matchBlockDirective "eslint-enable".data
  , matchBlockDirective "eslint-env".data
  , matchBlockGeneric
  , matchLineDirective "eslint-disable".data
  , matchLineDirective "eslint-enable".data
  , matchLineDirective "eslint-env".data
  , matchLineDirective "eslint-".data
  ]

/-- One global-`replace` pass of JavaScript `String.replace(regex, "")`
together with the match count of `String.match(regex)`: matches are found
left-to-right on the original text, each search resuming after the end of
the previous match, and all matches are deleted.  The fuel argument is the length
of the text; every pattern consumes at least two characters, so the fuel is
never exhausted. -/
def replaceGo (m : List Char → Option (List Char)) : Nat → List Char → Nat × List Char
  | _, [] => (0, [])
  | 0, c :: rest => (0, c :: rest)
  | Nat.succ fuel, c :: rest =>
    match m (c :: rest) with
    | some rest' =>
      let r := replaceGo m fuel rest'
      (r.1 + 1, r.2)
    | none =>
      let r := replaceGo m fuel rest
      (r.1, c :: r.2)

/-- Count the matches of one pattern and delete them all (one
`match`/`replace` pair of the source loop). -/
def replaceAll (m : List Char → Option (List Char)) (s : List Char) : Nat × List Char :=
  replaceGo m s.length s

/-- Result of `stripEslintCommentsFromContent`. -/
structure StripResult where
  modified : String
  removedCount : Nat
deriving DecidableEq, Repr

/-- One step of the `ESLINT_DIRECTIVE_PATTERNS.forEach` loop: the pattern is
applied to the already-modified text and its match count is accumulated. -/
def stripStep (acc : Nat × List Char) (m : List Char → Option (List Char)) :
    Nat × List Char :=
  let r := replaceAll m acc.2
  (acc.1 + r.1, r.2)

/-- Embeds `stripEslintCommentsFromContent`: apply the eight directive
patterns in order, each deleting its matches from the already-modified text,
and report the total number of matches removed. -/
def stripEslintCommentsFromContent (content : String) : StripResult :=
  let r := eslintDirectivePatterns.foldl stripStep (0, content.data)
  { modified := String.mk r.2, removedCount := r.1 }

/-! ## File-tree walk (`walkAndCleanComments`) -/

/-- The fixed recognized-code-extension set `CODE_EXTENSIONS`. -/
def CODE_EXTENSIONS : List String :=
  [".js", ".jsx", ".ts", ".tsx", ".mjs", ".cjs", ".vue", ".svelte", ".astro"]

/-- The fixed ignore set `IGNORED_DIRECTORIES`. -/
def IGNORED_DIRECTORIES : List String :=
  ["node_modules", ".git", "dist", "build", "coverage", ".next", ".turbo",
   ".cache", ".vscode", ".idea"]

/-- Index of the last `.` in a character list (starting the count at `i`). -/
def lastDotAt : List Char → Nat → Option Nat
  | [], _ => none
  | c :: rest, i =>
    match lastDotAt rest (i + 1) with
    | some j => some j
    | none => if c = '.' then some i else none

/-- The Node `path.extname` rule on a bare file name (no separators): the suffix
from the last dot, unless there is no dot or the only dot is the leading
character of the name. -/
def extnameOf (name : String) : String :=
  match lastDotAt name.data 0 with
  | none => ""
  | some j => if j = 0 then "" else String.mk (name.data.drop j)

/-- Embeds `isCodeFile` (`path.extname` membership in `CODE_EXTENSIONS`). -/
def isCodeFile (name : String) : Bool :=
  CODE_EXTENSIONS.contains (extnameOf name)

/-- Embeds `shouldIgnoreDir`. -/
def shouldIgnoreDir (dirName : String) : Bool :=
  IGNORED_DIRECTORIES.contains dirName

/-- A directory entry: a regular file with contents, or a subdirectory with
its own entries (in `readdirSync` order). -/
inductive FsEntry where
  | file (name content : String)
  | dir (name : String) (children : List FsEntry)
deriving Repr

/-- The aggregate counters of `walkAndCleanComments`. -/
structure CommentStats where
  filesScanned : Nat
  filesTouched : Nat
  totalCommentsRemoved : Nat
deriving DecidableEq, Repr

/-- Embeds the recursive `walk` closure of `walkAndCleanComments` on a list
of directory entries: subdirectories whose name is in the ignore set are
skipped (their subtree is left as on disk), other subdirectories are
recursed into, and every file with a recognized code extension is scanned;
it is rewritten (and counted as touched) exactly when the scrub removed a
positive number of occurrences.  The second component is the directory tree
as left on disk. -/
def walkList : List FsEntry → CommentStats × List FsEntry
  | [] => (⟨0, 0, 0⟩, [])
  | FsEntry.file n c :: es =>
    let rest := walkList es
    if isCodeFile n then
      let r := stripEslintCommentsFromContent c
      if 0 < r.removedCount then
        (⟨rest.1.filesScanned + 1, rest.1.filesTouched + 1,
          rest.1.totalCommentsRemoved + r.removedCount⟩,
         FsEntry.file n r.modified :: rest.2)
      else
        (⟨rest.1.filesScanned + 1, rest.1.filesTouched,
          rest.1.totalCommentsRemoved⟩,
         FsEntry.file n c :: rest.2)
    else (rest.1, FsEntry.file n c :: rest.2)
  | FsEntry.dir n cs :: es =>
    if shouldIgnoreDir n then
      let rest := walkList es
      (rest.1, FsEntry.dir n cs :: rest.2)
    else
      let inner := walkList cs
      let rest := walkList es
      (⟨inner.1.filesScanned + rest.1.filesScanned,
        inner.1.filesTouched + rest.1.filesTouched,
        inner.1.totalCommentsRemoved + rest.1.totalCommentsRemoved⟩,
       FsEntry.dir n inner.2 :: rest.2)

/-- Embeds `walkAndCleanComments(rootDir)`: the entries of the root directory
are walked and the counters returned. -/
def walkAndCleanComments (rootEntries : List FsEntry) : CommentStats :=
  (walkList rootEntries).1

/-- Specification-side helper: the contents of the files the walk processes
(code files not beneath any ignored directory, in traversal order). -/
def visibleFiles : List FsEntry → List String
  | [] => []
  | FsEntry.file n c :: es =>
    (if isCodeFile n then [c] else []) ++ visibleFiles es
  | FsEntry.dir n cs :: es =>
    (if shouldIgnoreDir n then [] else visibleFiles cs) ++ visibleFiles es

/-- Specification-side helper: the tree after the walk, in the words of the
spec — the rewritten content replaces the original only for processed code
files whose aggregate count is positive; everything beneath an ignored
directory is untouched. -/
def specRewrite : List FsEntry → List FsEntry
  | [] => []
  | FsEntry.file n c :: es =>
    (if isCodeFile n ∧ 0 < (stripEslintCommentsFromContent c).removedCount then
      FsEntry.file n (stripEslintCommentsFromContent c).modified
     else FsEntry.file n c) :: specRewrite es
  | FsEntry.dir n cs :: es =>
    FsEntry.dir n (if shouldIgnoreDir n then cs else specRewrite cs) :: specRewrite es

/-- Specification-side helper: empty out every ignored directory, at any
depth. -/
def pruneList : List FsEntry → List FsEntry
  | [] => []
  | FsEntry.file n c :: es => FsEntry.file n c :: pruneList es
  | FsEntry.dir n cs :: es =>
    FsEntry.dir n (if shouldIgnoreDir n then [] else pruneList cs) :: pruneList es

/-- Boolean structural equality of entry lists. -/
def entriesEqb : List FsEntry → List FsEntry → Bool
  | [], [] => true
  | FsEntry.file n c :: es, FsEntry.file n' c' :: es' =>
    n == n' && c == c' && entriesEqb es es'
  | FsEntry.dir n cs :: es, FsEntry.dir n' cs' :: es' =>
    n == n' && entriesEqb cs cs' && entriesEqb es es'
  | _, _ => false

/-- Two entry lists have the same shape and agree exactly beneath every
ignored directory (contents elsewhere are unconstrained). -/
def sameUnderIgnored : List FsEntry → List FsEntry → Bool
  | [], [] => true
  | FsEntry.file n _ :: es, FsEntry.file n' _ :: es' =>
    n == n' && sameUnderIgnored es es'
  | FsEntry.dir n cs :: es, FsEntry.dir n' cs' :: es' =>
    n == n' &&
      (if shouldIgnoreDir n then entriesEqb cs cs' else sameUnderIgnored cs cs') &&
      sameUnderIgnored es es'
  | _, _ => false

/-! ## Package-manager detection (`findUpwards`, `detectPackageManager`) -/

/-- The `lint` sub-object of a package-manager profile. -/
structure PmLint where
  run : String
  fix : String

/-- One entry of `PACKAGE_MANAGERS`: identifier, lockfile name (or none),
command builders and lint commands. -/
structure PmProfile where
  id : String
  lockFile : Option String
  buildInstallCommand : String → String
  buildUninstallCommand : List String → String
  lint : PmLint

/-- Embeds `PACKAGE_MANAGERS.pnpm`. -/
def PACKAGE_MANAGERS_pnpm : PmProfile where
  id := "pnpm"
  lockFile := some "pnpm-lock.yaml"
  buildInstallCommand := fun dependency => "pnpm add -D -E " ++ dependency
  buildUninstallCommand := fun packages => "pnpm remove " ++ String.intercalate " " packages
  lint := { run := "pnpm lint", fix := "pnpm lint:fix" }

/-- Embeds `PACKAGE_MANAGERS.yarn`. -/
def PACKAGE_MANAGERS_yarn : PmProfile where
  id := "yarn"
  lockFile := some "yarn.lock"
  buildInstallCommand := fun dependency => "yarn add -D -E " ++ dependency
  buildUninstallCommand := fun packages => "yarn remove " ++ String.intercalate " " packages
  lint := { run := "yarn lint", fix := "yarn lint:fix" }

/-- Embeds `PACKAGE_MANAGERS.bun`. -/
def PACKAGE_MANAGERS_bun : PmProfile where
  id := "bun"
  lockFile := some "bun.lockb"
  buildInstallCommand := fun dependency => "bun add -D -E " ++ dependency
  buildUninstallCommand := fun packages => "bun remove " ++ String.intercalate " " packages
  lint := { run := "bun run lint", fix := "bun run lint:fix" }

/-- Embeds `PACKAGE_MANAGERS.npm`. -/
def PACKAGE_MANAGERS_npm : PmProfile where
  id := "npm"
  lockFile := none
  buildInstallCommand := fun dependency => "npm install -D -E " ++ dependency
  buildUninstallCommand := fun packages => "npm uninstall " ++ String.intercalate " " packages
  lint := { run := "npm run lint", fix := "npm run lint:fix" }

/-- The property names every plain object literal inherits from
`Object.prototype` (ECMA-262), all bound to truthy values: the standard
methods, the `constructor` reference and the `__proto__` accessor plus the
four legacy accessor-management methods. -/
def OBJECT_PROTOTYPE_MEMBERS : List String :=
  ["constructor", "hasOwnProperty", "isPrototypeOf", "propertyIsEnumerable",
   "toLocaleString", "toString", "valueOf", "__proto__",
   "__defineGetter__", "__defineSetter__", "__lookupGetter__", "__lookupSetter__"]

/-- The truthy values the unguarded property access `PACKAGE_MANAGERS[id]`
can produce: an own property (one of the four profiles), or a member
inherited from `Object.prototype` — the table is a plain object literal, so
names such as `constructor` or `toString` hit truthy inherited functions and
`__proto__` hits `Object.prototype` itself.  `detectPackageManager` returns
whichever truthy value the access yields. -/
inductive PmLookup where
  | profile (pm : PmProfile)
  | protoMember (name : String)

/-- Discriminator: did the lookup land on an own profile of the table? -/
def PmLookup.isProfile : PmLookup → Bool
  | PmLookup.profile _ => true
  | PmLookup.protoMember _ => false

/-- The indexing `PACKAGE_MANAGERS[id]`: an own key yields its profile; any
name of a truthy member inherited from `Object.prototype` yields that
member; every other name yields `undefined` (falsy), modelled as `none`. -/
def lookupPm (id : String) : Option PmLookup :=
  match id with
  | "pnpm" => some (PmLookup.profile PACKAGE_MANAGERS_pnpm)
  | "yarn" => some (PmLookup.profile PACKAGE_MANAGERS_yarn)
  | "bun" => some (PmLookup.profile PACKAGE_MANAGERS_bun)
  | "npm" => some (PmLookup.profile PACKAGE_MANAGERS_npm)
  | _ =>
    if OBJECT_PROTOTYPE_MEMBERS.contains id then some (PmLookup.protoMember id)
    else none

/-- Embeds `PACKAGE_MANAGER_PRIORITY`. -/
def PACKAGE_MANAGER_PRIORITY : List String := ["pnpm", "yarn", "bun"]

/-- What reading and JSON-parsing a directory's `package.json` yields during
detection: either the read or the parse throws (both are caught and
ignored), or it parses, carrying the `packageManager` field when that field
is present and a string. -/
inductive ManifestRead where
  | unreadable
  | parsed (packageManager : Option String)
deriving DecidableEq, Repr

/-- One directory level: the file names that exist in it, and the outcome of
reading its `package.json`. -/
structure PkgDir where
  files : List String
  pkgJson : ManifestRead
deriving DecidableEq, Repr

/-- The chain of directories from the working directory (`PROJECT_ROOT`) up
to the filesystem root: `cwd` first, then each parent in order. -/
structure FsChain where
  cwd : PkgDir
  ancestors : List PkgDir
deriving DecidableEq, Repr

/-- The directory chain walked by `findUpwards`. -/
def FsChain.dirs (fsc : FsChain) : List PkgDir := fsc.cwd :: fsc.ancestors

/-- Embeds `findUpwards(filenames)`: at each level, starting from the
working directory, every candidate name is tried in order before ascending;
the result records how many levels up the match was found, the matching
directory and the matching name. -/
def findUpwardsAux (filenames : List String) : List PkgDir → Option (Nat × PkgDir × String)
  | [] => none
  | d :: ds =>
    match filenames.find? (fun name => d.files.contains name) with
    | some name => some (0, d, name)
    | none =>
      match findUpwardsAux filenames ds with
      | some (i, d', name) => some (i + 1, d', name)
      | none => none

/-- JavaScript `s.split("@")[0]`: the prefix of `s` before the first `@`
(the whole string when there is no `@`). -/
def idBefore (s : String) : String :=
  String.mk (s.data.takeWhile (fun c => !(c == '@')))

/-- Embeds `extractFromPackageManagerField`: read and parse the
`package.json` of the directory (failures are swallowed), and when the
`packageManager` field is a string, return whatever truthy value indexing
the profile table with the part before `@` produces — an own profile or an
inherited `Object.prototype` member. -/
def extractFromPackageManagerField (d : PkgDir) : Option PmLookup :=
  match d.pkgJson with
  | ManifestRead.parsed (some s) => lookupPm (idBefore s)
  | _ => none

/-- Step 3 of `detectPackageManager`: walk the priority list and return the
first manager whose lockfile is found somewhere up the chain.  The priority
ids are own keys of the table, so the lookup always yields a profile there;
on any non-profile value `candidate.lockFile` would be `undefined` (falsy)
and the loop would continue. -/
def lockfileSearch (dirs : List PkgDir) : List String → Option PmProfile
  | [] => none
  | id :: rest =>
    match lookupPm id with
    | some (PmLookup.profile candidate) =>
      match candidate.lockFile with
      | none => lockfileSearch dirs rest
      | some lf =>
        match findUpwardsAux [lf] dirs with
        | some _ => some candidate
        | none => lockfileSearch dirs rest
    | _ => lockfileSearch dirs rest

/-- Steps 2–4 of `detectPackageManager`: the declaration of the nearest
ancestor manifest (skipped when the nearest `package.json` is the local
one), then the lockfile search, then the npm fallback. -/
def detectFallback (fsc : FsChain) : PmLookup :=
  let fromUpstream :=
    match findUpwardsAux ["package.json"] fsc.dirs with
    | some (0, _, _) => none
    | some (_ + 1, d, _) => extractFromPackageManagerField d
    | none => none
  match fromUpstream with
  | some pm => pm
  | none =>
    match lockfileSearch fsc.dirs PACKAGE_MANAGER_PRIORITY with
    | some pm => PmLookup.profile pm
    | none => PmLookup.profile PACKAGE_MANAGERS_npm

/-- Embeds `detectPackageManager`: the `packageManager` field of the local
`package.json` takes precedence — any truthy lookup result is returned,
including an inherited `Object.prototype` member; otherwise fall through to
the ancestor / lockfile / npm steps. -/
def detectPackageManager (fsc : FsChain) : PmLookup :=
  match extractFromPackageManagerField fsc.cwd with
  | some pm => pm
  | none => detectFallback fsc

/-- Specification-side pick used by claim C3: the first manager in priority
order whose lockfile exists at any level of the chain, with npm as default
(distance from the working directory plays no role). -/
def lockfilePriorityPick (dirs : List PkgDir) : PmProfile :=
  if dirs.any (fun d => d.files.contains "pnpm-lock.yaml") then PACKAGE_MANAGERS_pnpm
  else if dirs.any (fun d => d.files.contains "yarn.lock") then PACKAGE_MANAGERS_yarn
  else if dirs.any (fun d => d.files.contains "bun.lockb") then PACKAGE_MANAGERS_bun
  else PACKAGE_MANAGERS_npm

/-! ## Manifest model (`package.json` as a JSON object) -/

/-- JSON values as produced by `JSON.parse` (numbers by their numeric value,
modelled as integers — no manifest field the tool inspects carries a
fractional number). -/
inductive JVal where
  | null
  | jbool (b : Bool)
  | jnum (n : Int)
  | jstr (s : String)
  | jarr (items : List JVal)
  | jobj (fields : List (String × JVal))

/-- JavaScript truthiness of a defined JSON value. -/
def truthy : JVal → Bool
  | JVal.null => false
  | JVal.jbool b => b
  | JVal.jnum n => n != 0
  | JVal.jstr s => s != ""
  | JVal.jarr _ => true
  | JVal.jobj _ => true

/-- Truthiness of a possibly-undefined property. -/
def truthyOpt : Option JVal → Bool
  | some v => truthy v
  | none => false

/-- Property read `obj[k]` (first binding wins; parsed JSON objects have
unique keys). -/
def getField : List (String × JVal) → String → Option JVal
  | [], _ => none
  | (k', v) :: rest, k => if k' = k then some v else getField rest k

/-- Property write `obj[k] = v`: an existing key keeps its position, a new
key is appended. -/
def setField : List (String × JVal) → String → JVal → List (String × JVal)
  | [], k, v => [(k, v)]
  | (k', v') :: rest, k, v =>
    if k' = k then (k', v) :: rest else (k', v') :: setField rest k v

/-- Property deletion `delete obj[k]`. -/
def removeField : List (String × JVal) → String → List (String × JVal)
  | [], _ => []
  | (k', v') :: rest, k =>
    if k' = k then removeField rest k else (k', v') :: removeField rest k

/-- A parsed manifest object. -/
def Manifest := List (String × JVal)

/-- The four dependency groups scanned by the tool. -/
def dependencyFields : List String :=
  ["dependencies", "devDependencies", "peerDependencies", "optionalDependencies"]

/-! ## Legacy tool detection (`findLegacyTools`) -/

/-- Does `s` start with `pat`? -/
def startsWithChars : List Char → List Char → Bool
  | [], _ => true
  | _ :: _, [] => false
  | p :: ps, c :: cs => p == c && startsWithChars ps cs

/-- Does `s` contain `pat` as a contiguous substring? -/
def hasSubChars (pat : List Char) : List Char → Bool
  | [] => startsWithChars pat []
  | c :: cs => startsWithChars pat (c :: cs) || hasSubChars pat cs

/-- ASCII lower-casing of one character (the case folding the
case-insensitive regex applies to the letters of `eslint` / `prettier`). -/
def lowerChar (c : Char) : Char :=
  if 'A' ≤ c && c ≤ 'Z' then Char.ofNat (c.toNat + 32) else c

/-- Embeds `LEGACY_TOOL_PATTERN.test(name)` — the case-insensitive regex
`/(eslint|prettier)/i` searches the name for either word in any casing. -/
def legacyToolTest (name : String) : Bool :=
  hasSubChars "eslint".data (name.data.map lowerChar) ||
  hasSubChars "prettier".data (name.data.map lowerChar)

/-- The `legacy.add(name)` step of `findLegacyTools`: a JavaScript `Set`
keeps insertion order and ignores re-insertions, so matching names are
appended when unseen. -/
def addLegacyName (acc : List String) (name : String) : List String :=
  if legacyToolTest name && !acc.contains name then acc ++ [name] else acc

/-- Embeds `findLegacyTools`: scan the four dependency groups in order and
collect (Set-deduplicated, in first-seen order) the dependency names that
match the legacy-tool pattern. -/
def findLegacyTools (pkg : Manifest) : List String :=
  dependencyFields.foldl
    (fun acc field =>
      match getField pkg field with
      | some (JVal.jobj deps) => (deps.map (fun kv => kv.1)).foldl addLegacyName acc
      | _ => acc)
    []

/-- Specification-side dedup that keeps the first occurrence of each name. -/
def dedupKeepFirst : List String → List String
  | [] => []
  | x :: xs => x :: dedupKeepFirst (xs.filter (fun y => !(y == x)))
termination_by l => l.length
decreasing_by
  simp only [List.length_cons]
  exact Nat.lt_succ_of_le (List.length_filter_le _ _)

/-- Specification-side list of all dependency names of the four groups, in
group order then key order. -/
def allDepNames (pkg : Manifest) : List String :=
  dependencyFields.flatMap
    (fun field =>
      match getField pkg field with
      | some (JVal.jobj deps) => deps.map (fun kv => kv.1)
      | _ => [])

/-! ## Manifest mutation (`cleanEslintPrettierConfig`, `updatePackageJsonScripts`) -/

/-- Embeds `cleanEslintPrettierConfig`: delete the top-level `eslintConfig`
and `prettier` keys when they hold truthy values; report whether anything
changed. -/
def cleanEslintPrettierConfig (pkg : Manifest) : Bool × Manifest :=
  let step1 :=
    if truthyOpt (getField pkg "eslintConfig") then (true, removeField pkg "eslintConfig")
    else (false, pkg)
  let step2 :=
    if truthyOpt (getField step1.2 "prettier") then (true, removeField step1.2 "prettier")
    else (false, step1.2)
  (step1.1 || step2.1, step2.2)

/-- Embeds `isTypescriptProject`: a `tsconfig.json` at the project root, or
a truthy `typescript` entry in any dependency group. -/
def isTypescriptProject (tsconfigExists : Bool) (pkg : Manifest) : Bool :=
  tsconfigExists ||
    dependencyFields.any (fun field =>
      match getField pkg field with
      | some (JVal.jobj deps) => truthyOpt (getField deps "typescript")
      | _ => false)

/-- Embeds `updatePackageJsonScripts` on the manifest it read: ensure a
`scripts` object, then add/replace `lint`, `lint:fix` and (for TypeScript
projects) `type-check`. -/
def updatePackageJsonScripts (tsconfigExists : Bool) (pkg : Manifest) : Manifest :=
  let scripts0 : List (String × JVal) :=
    match getField pkg "scripts" with
    | some (JVal.jobj s) => s
    | _ => []
  let isTs := isTypescriptProject tsconfigExists pkg
  let scripts1 :=
    if isTs then
      setField
        (setField (setField scripts0 "type-check" (JVal.jstr "tsc -b --noEmit"))
          "lint"
          (JVal.jstr "biome lint --diagnostic-level=error --no-errors-on-unmatched && type-check"))
        "lint:fix" (JVal.jstr "biome check --write --unsafe && type-check")
    else
      setField
        (setField scripts0 "lint"
          (JVal.jstr "biome lint --diagnostic-level=error --no-errors-on-unmatched"))
        "lint:fix" (JVal.jstr "biome check --write --unsafe")
  setField pkg "scripts" (JVal.jobj scripts1)

/-! ## Manifest reading and error classification (`readPackageJson`, `main`) -/

/-- The state of the `package.json` file at the working directory, as seen
by `ensurePackageJsonExists` / `readPackageJson`: missing, present but
failing to read or JSON-parse (with the thrown error's message), or parsed. -/
inductive PkgFileState where
  | absent
  | malformed (errMsg : String)
  | wellFormed (pkg : Manifest)

/-- The tool's two error classes: `CliError` (user-reported) and any other
thrown error (unexpected). -/
inductive MigError where
  | cliError (message : String)
  | unexpected (message : String)
deriving DecidableEq, Repr

/-- Embeds `readPackageJson` (including the `ensurePackageJsonExists`
guard): a missing file is a `CliError`; a read/parse failure is a `CliError`
embedding the underlying message; otherwise the parsed manifest. -/
def readPackageJson : PkgFileState → Except MigError Manifest
  | PkgFileState.absent =>
    Except.error (MigError.cliError
      "No package.json found. Please run this command in your project root.")
  | PkgFileState.malformed m =>
    Except.error (MigError.cliError ("Could not read or parse package.json: " ++ m))
  | PkgFileState.wellFormed pkg => Except.ok pkg

/-- Embeds the catch-block of `main`: a `CliError` is reported as a plain
user-facing message (`true`), anything else with full diagnostics (`false`);
both paths call `process.exit(1)`.  Returns (user-reported?, exit code). -/
def handleMainError : MigError → Bool × Nat
  | MigError.cliError _ => (true, 1)
  | MigError.unexpected _ => (false, 1)

/-! ## Sanity checks of the scrubber embedding -/

example :
    stripEslintCommentsFromContent "// eslint-disable-next-line no-unused-vars" =
      { modified := "", removedCount := 1 } := by decide

example :
    stripEslintCommentsFromContent "const a = 1\n/* eslint-disable foo */\nconst b = 2\n" =
      { modified := "const a = 1\n\nconst b = 2\n", removedCount := 1 } := by decide

example :
    stripEslintCommentsFromContent "const a = 1\n" =
      { modified := "const a = 1\n", removedCount := 0 } := by decide

/-! ## Scrubber lemmas -/

/-- A replace pass that found no match rebuilt the text unchanged. -/
theorem replaceGo_fst_zero (m : List Char → Option (List Char)) :
    ∀ fuel s, (replaceGo m fuel s).1 = 0 → (replaceGo m fuel s).2 = s := by
  intro fuel
  induction fuel with
  | zero => intro s h; cases s <;> simp [replaceGo]
  | succ n ih =>
    intro s h
    cases s with
    | nil => simp [replaceGo]
    | cons c rest =>
      simp only [replaceGo] at h ⊢
      cases hm : m (c :: rest) with
      | some rest' => rw [hm] at h; simp at h
      | none =>
        rw [hm] at h
        dsimp only at h ⊢
        rw [ih rest h]

/-- The pattern loop only ever increases the accumulated count. -/
theorem foldl_stripStep_mono (ps : List (List Char → Option (List Char))) :
    ∀ acc, acc.1 ≤ (ps.foldl stripStep acc).1 := by
  induction ps with
  | nil => intro acc; simp
  | cons p ps ih =>
    intro acc
    calc acc.1 ≤ (stripStep acc p).1 := by simp [stripStep]
    _ ≤ (ps.foldl stripStep (stripStep acc p)).1 := ih _

/-- If the pattern loop added nothing to the count, it left the text as it
was. -/
theorem foldl_stripStep_fst_eq (ps : List (List Char → Option (List Char))) :
    ∀ acc, (ps.foldl stripStep acc).1 = acc.1 → (ps.foldl stripStep acc).2 = acc.2 := by
  induction ps with
  | nil => intro acc _; simp
  | cons p ps ih =>
    intro acc h
    simp only [List.foldl_cons] at h ⊢
    have h1 : (stripStep acc p).1 ≤ acc.1 := by
      calc (stripStep acc p).1 ≤ (ps.foldl stripStep (stripStep acc p)).1 :=
            foldl_stripStep_mono ps _
      _ = acc.1 := h
    have hz : (replaceAll p acc.2).1 = 0 := by
      simp only [stripStep] at h1; omega
    have hstep : stripStep acc p = acc := by
      simp only [stripStep, hz]
      have hsnd := replaceGo_fst_zero p acc.2.length acc.2 hz
      simp only [replaceAll] at hsnd ⊢
      rw [hsnd]
      simp
    rw [hstep] at h ⊢
    exact ih acc h

/-- A scrub that removed zero occurrences returned the content unchanged. -/
theorem strip_count_zero (c : String)
    (h : (stripEslintCommentsFromContent c).removedCount = 0) :
    (stripEslintCommentsFromContent c).modified = c := by
  simp only [stripEslintCommentsFromContent] at h ⊢
  have hfold := foldl_stripStep_fst_eq eslintDirectivePatterns (0, c.data) h
  rw [hfold]

/-! ## Walk lemmas -/

/-- The walk computes, in one pass, the statistics of the visible code files
and the spec-side rewritten tree. -/
theorem walkList_eq_spec (es : List FsEntry) :
    walkList es =
      (⟨(visibleFiles es).length,
        ((visibleFiles es).filter fun c =>
          0 < (stripEslintCommentsFromContent c).removedCount).length,
        ((visibleFiles es).map fun c =>
          (stripEslintCommentsFromContent c).removedCount).sum⟩,
       specRewrite es) := by
  induction es using walkList.induct with
  | case1 => simp [walkList, visibleFiles, specRewrite]
  | case2 n c es hcode r hpos ih =>
    simp only [walkList, visibleFiles, specRewrite, hcode, if_true, ih]
    simp [hpos, List.filter_cons, Nat.add_comm]
  | case3 n c es hcode r hpos ih =>
    replace hpos : (stripEslintCommentsFromContent c).removedCount = 0 :=
      Nat.eq_zero_of_not_pos hpos
    simp only [walkList, visibleFiles, specRewrite, hcode, if_true, ih]
    simp [hpos, List.filter_cons, Nat.add_comm]
  | case4 n c es hcode ih =>
    simp_all [walkList, visibleFiles, specRewrite]
  | case5 n cs es hign ih =>
    simp_all [walkList, visibleFiles, specRewrite]
  | case6 n cs es hign ihc ih =>
    simp_all [walkList, visibleFiles, specRewrite, Nat.add_comm]

/-- Emptying the ignored directories does not change which files are
visible. -/
theorem visibleFiles_prune (es : List FsEntry) :
    visibleFiles (pruneList es) = visibleFiles es := by
  induction es using pruneList.induct with
  | case1 => simp [pruneList]
  | case2 n c es ih => simp [pruneList, visibleFiles, ih]
  | case3 n cs es ih ihes =>
    by_cases h : shouldIgnoreDir n <;> simp_all [pruneList, visibleFiles]

/-- Reflexivity of the boolean entry-list equality. -/
theorem entriesEqb_refl (es : List FsEntry) : entriesEqb es es = true := by
  induction es using pruneList.induct with
  | case1 => simp [entriesEqb]
  | case2 n c es ih => simp [entriesEqb, ih]
  | case3 n cs es ih ihes => simp [entriesEqb, ih, ihes]

/-- The spec-side rewrite agrees with the input beneath every ignored
directory, at any depth. -/
theorem sameUnderIgnored_specRewrite (es : List FsEntry) :
    sameUnderIgnored es (specRewrite es) = true := by
  induction es using pruneList.induct with
  | case1 => simp [specRewrite, sameUnderIgnored]
  | case2 n c es ih =>
    simp only [specRewrite]
    split <;> simp [sameUnderIgnored, ih]
  | case3 n cs es ih ihes =>
    by_cases h : shouldIgnoreDir n <;>
      simp_all [specRewrite, sameUnderIgnored, entriesEqb_refl]

/-! ## Detection lemmas -/

/-- A directory returned by `findUpwards` lies on the searched chain. -/
theorem findUpwardsAux_mem {names : List String} :
    ∀ {dirs : List PkgDir} {i : Nat} {d : PkgDir} {n : String},
      findUpwardsAux names dirs = some (i, d, n) → d ∈ dirs := by
  intro dirs
  induction dirs with
  | nil => intro i d n h; simp [findUpwardsAux] at h
  | cons d0 ds ih =>
    intro i d n h
    simp only [findUpwardsAux] at h
    cases hf : names.find? (fun name => d0.files.contains name) with
    | some nm =>
      rw [hf] at h
      simp at h
      obtain ⟨-, h2, -⟩ := h
      simp [← h2]
    | none =>
      rw [hf] at h
      cases hrec : findUpwardsAux names ds with
      | some t =>
        obtain ⟨i', d', n'⟩ := t
        rw [hrec] at h
        simp at h
        obtain ⟨-, h2, -⟩ := h
        exact List.mem_cons_of_mem _ (h2 ▸ ih hrec)
      | none => rw [hrec] at h; simp at h

/-- A single-name `findUpwards` fails exactly when no level holds the file. -/
theorem findUpwardsAux_none_of_notfound {lf : String} :
    ∀ {dirs : List PkgDir}, (dirs.any fun d => d.files.contains lf) = false →
      findUpwardsAux [lf] dirs = none := by
  intro dirs
  induction dirs with
  | nil => intro h; rfl
  | cons d0 ds ih =>
    intro h
    simp only [List.any_cons, Bool.or_eq_false_iff] at h
    obtain ⟨h0, hs⟩ := h
    have h0d : decide (lf ∈ d0.files) = false := by simpa using h0
    have hf : List.find? (fun name => d0.files.contains name) [lf] = none := by
      simp [List.find?, h0d]
    simp only [findUpwardsAux, hf, ih hs]

/-- A single-name `findUpwards` succeeds when some level holds the file. -/
theorem findUpwardsAux_isSome_of_found {lf : String} :
    ∀ {dirs : List PkgDir}, (dirs.any fun d => d.files.contains lf) = true →
      (findUpwardsAux [lf] dirs).isSome = true := by
  intro dirs
  induction dirs with
  | nil => intro h; simp at h
  | cons d0 ds ih =>
    intro h
    simp only [List.any_cons, Bool.or_eq_true] at h
    simp only [findUpwardsAux]
    cases hc : d0.files.contains lf with
    | true =>
      have hcd : decide (lf ∈ d0.files) = true := by simpa using hc
      have hf : List.find? (fun name => d0.files.contains name) [lf] = some lf := by
        simp [List.find?, hcd]
      rw [hf]
      rfl
    | false =>
      have hcd : decide (lf ∈ d0.files) = false := by simpa using hc
      have hf : List.find? (fun name => d0.files.contains name) [lf] = none := by
        simp [List.find?, hcd]
      rw [hf]
      have hds : (ds.any fun d => d.files.contains lf) = true := by
        rcases h with h | h
        · rw [hc] at h; exact absurd h (by simp)
        · exact h
      have hrecSome := ih hds
      cases hrec : findUpwardsAux [lf] ds with
      | some t => obtain ⟨i, d, n⟩ := t; rfl
      | none => rw [hrec] at hrecSome; simp at hrecSome

/-- The priority loop over the lockfile table equals the spec-side
priority-order pick. -/
theorem lockfileSearch_priority (dirs : List PkgDir) :
    (match lockfileSearch dirs PACKAGE_MANAGER_PRIORITY with
      | some pm => pm
      | none => PACKAGE_MANAGERS_npm) = lockfilePriorityPick dirs := by
  have hstep : ∀ (id : String) (rest : List String) (cand : PmProfile) (lf : String),
      lookupPm id = some (PmLookup.profile cand) → cand.lockFile = some lf →
      lockfileSearch dirs (id :: rest) =
        (if (dirs.any fun d => d.files.contains lf) = true then some cand
         else lockfileSearch dirs rest) := by
    intro id rest cand lf h1 h2
    simp only [lockfileSearch, h1, h2]
    by_cases hp : (dirs.any fun d => d.files.contains lf) = true
    · have hs := findUpwardsAux_isSome_of_found hp
      cases hf : findUpwardsAux [lf] dirs with
      | none => rw [hf] at hs; simp at hs
      | some t => dsimp only; rw [if_pos hp]
    · have hnone : findUpwardsAux [lf] dirs = none :=
        findUpwardsAux_none_of_notfound (by simpa using hp)
      rw [hnone]
      dsimp only
      rw [if_neg hp]
  rw [show PACKAGE_MANAGER_PRIORITY = ["pnpm", "yarn", "bun"] from rfl]
  rw [hstep "pnpm" _ PACKAGE_MANAGERS_pnpm "pnpm-lock.yaml" rfl rfl]
  rw [hstep "yarn" _ PACKAGE_MANAGERS_yarn "yarn.lock" rfl rfl]
  rw [hstep "bun" _ PACKAGE_MANAGERS_bun "bun.lockb" rfl rfl]
  rw [show lockfileSearch dirs ([] : List String) = none from rfl]
  unfold lockfilePriorityPick
  cases h1 : dirs.any (fun d => d.files.contains "pnpm-lock.yaml") <;>
    cases h2 : dirs.any (fun d => d.files.contains "yarn.lock") <;>
      cases h3 : dirs.any (fun d => d.files.contains "bun.lockb") <;>
        simp only [h1, h2, h3, if_true, if_false, Bool.false_eq_true, ite_false, ite_true]

/-- The wrapped form of the priority-loop characterization, as the fallback
chain consumes it. -/
theorem lockfileSearch_priority_wrapped (dirs : List PkgDir) :
    (match lockfileSearch dirs PACKAGE_MANAGER_PRIORITY with
      | some pm => PmLookup.profile pm
      | none => PmLookup.profile PACKAGE_MANAGERS_npm) =
      PmLookup.profile (lockfilePriorityPick dirs) := by
  have h := lockfileSearch_priority dirs
  cases hls : lockfileSearch dirs PACKAGE_MANAGER_PRIORITY <;>
    rw [hls] at h <;> dsimp only at h ⊢ <;> rw [h]

/-- Every value the table lookup can yield: one of the four fixed profiles,
or a member inherited from `Object.prototype` under its own name. -/
theorem lookupPm_cases (s : String) (r : PmLookup) (h : lookupPm s = some r) :
    (r = PmLookup.profile PACKAGE_MANAGERS_pnpm ∨
     r = PmLookup.profile PACKAGE_MANAGERS_yarn ∨
     r = PmLookup.profile PACKAGE_MANAGERS_bun ∨
     r = PmLookup.profile PACKAGE_MANAGERS_npm) ∨
    (s ∈ OBJECT_PROTOTYPE_MEMBERS ∧ r = PmLookup.protoMember s) := by
  unfold lookupPm at h
  split at h
  · exact Or.inl (Or.inl (by simp_all))
  · exact Or.inl (Or.inr (Or.inl (by simp_all)))
  · exact Or.inl (Or.inr (Or.inr (Or.inl (by simp_all))))
  · exact Or.inl (Or.inr (Or.inr (Or.inr (by simp_all))))
  · split at h
    · rename_i hc
      exact Or.inr ⟨by simpa using hc, by simp_all⟩
    · exact absurd h (by simp)

/-- Every value the extraction can yield: a fixed profile or an inherited
member. -/
theorem extract_cases (d : PkgDir) (r : PmLookup)
    (h : extractFromPackageManagerField d = some r) :
    (r = PmLookup.profile PACKAGE_MANAGERS_pnpm ∨
     r = PmLookup.profile PACKAGE_MANAGERS_yarn ∨
     r = PmLookup.profile PACKAGE_MANAGERS_bun ∨
     r = PmLookup.profile PACKAGE_MANAGERS_npm) ∨
    (∃ m, m ∈ OBJECT_PROTOTYPE_MEMBERS ∧ r = PmLookup.protoMember m) := by
  unfold extractFromPackageManagerField at h
  split at h
  · rcases lookupPm_cases _ _ h with h4 | ⟨hm, hr⟩
    · exact Or.inl h4
    · exact Or.inr ⟨_, hm, hr⟩
  · exact absurd h (by simp)

/-- Every profile the lockfile loop returns is one of the four fixed
profiles. -/
theorem lockfileSearch_one_of_four (dirs : List PkgDir) :
    ∀ (ids : List String) (pm : PmProfile), lockfileSearch dirs ids = some pm →
      pm = PACKAGE_MANAGERS_pnpm ∨ pm = PACKAGE_MANAGERS_yarn ∨
        pm = PACKAGE_MANAGERS_bun ∨ pm = PACKAGE_MANAGERS_npm := by
  intro ids
  induction ids with
  | nil => intro pm h; exact absurd h (by simp [lockfileSearch])
  | cons id rest ih =>
    intro pm h
    simp only [lockfileSearch] at h
    cases hl : lookupPm id with
    | none => rw [hl] at h; exact ih pm h
    | some r =>
      rw [hl] at h
      cases r with
      | protoMember m => exact ih pm h
      | profile cand =>
        dsimp only at h
        cases hlf : cand.lockFile with
        | none => rw [hlf] at h; exact ih pm h
        | some lf =>
          rw [hlf] at h
          dsimp only at h
          cases hf : findUpwardsAux [lf] dirs with
          | none => rw [hf] at h; exact ih pm h
          | some t =>
            rw [hf] at h
            simp at h
            rcases lookupPm_cases _ _ hl with h4 | ⟨-, hr⟩
            · subst h
              rcases h4 with h4 | h4 | h4 | h4 <;> simp at h4 <;> simp [h4]
            · exact absurd hr (by simp)

/-- Where detection can land: on one of the four fixed profiles, or on an
inherited `Object.prototype` member that some manifest on the chain declared
as its package-manager name. -/
theorem detect_cases (fsc : FsChain) :
    (detectPackageManager fsc = PmLookup.profile PACKAGE_MANAGERS_pnpm ∨
     detectPackageManager fsc = PmLookup.profile PACKAGE_MANAGERS_yarn ∨
     detectPackageManager fsc = PmLookup.profile PACKAGE_MANAGERS_bun ∨
     detectPackageManager fsc = PmLookup.profile PACKAGE_MANAGERS_npm) ∨
    (∃ d ∈ fsc.dirs, ∃ m, m ∈ OBJECT_PROTOTYPE_MEMBERS ∧
      extractFromPackageManagerField d = some (PmLookup.protoMember m) ∧
      detectPackageManager fsc = PmLookup.protoMember m) := by
  unfold detectPackageManager
  cases hl : extractFromPackageManagerField fsc.cwd with
  | some r =>
    dsimp only
    rcases extract_cases _ _ hl with h4 | ⟨m, hm, hr⟩
    · exact Or.inl h4
    · exact Or.inr ⟨fsc.cwd, by simp [FsChain.dirs], m, hm, hr ▸ hl, hr⟩
  | none =>
    dsimp only
    unfold detectFallback
    cases hup : findUpwardsAux ["package.json"] fsc.dirs with
    | none =>
      dsimp only
      cases hls : lockfileSearch fsc.dirs PACKAGE_MANAGER_PRIORITY with
      | some pm =>
        dsimp only
        rcases lockfileSearch_one_of_four _ _ _ hls with h | h | h | h <;> simp [h]
      | none => simp
    | some t =>
      obtain ⟨i, d, n⟩ := t
      cases i with
      | zero =>
        dsimp only
        cases hls : lockfileSearch fsc.dirs PACKAGE_MANAGER_PRIORITY with
        | some pm =>
          dsimp only
          rcases lockfileSearch_one_of_four _ _ _ hls with h | h | h | h <;> simp [h]
        | none => simp
      | succ j =>
        dsimp only
        cases hex : extractFromPackageManagerField d with
        | some r =>
          dsimp only
          rcases extract_cases _ _ hex with h4 | ⟨m, hm, hr⟩
          · exact Or.inl h4
          · exact Or.inr ⟨d, findUpwardsAux_mem hup, m, hm, hr ▸ hex, hr⟩
        | none =>
          dsimp only
          cases hls : lockfileSearch fsc.dirs PACKAGE_MANAGER_PRIORITY with
          | some pm =>
            dsimp only
            rcases lockfileSearch_one_of_four _ _ _ hls with h | h | h | h <;> simp [h]
          | none => simp

/-- When the local probe yields nothing, detection is the fallback chain. -/
theorem detect_skips_bad_local (fsc : FsChain)
    (h : extractFromPackageManagerField fsc.cwd = none) :
    detectPackageManager fsc = detectFallback fsc := by
  unfold detectPackageManager
  rw [h]

/-! ## Legacy-tool lemmas -/

/-- Bridge between propositional and boolean string equality. -/
theorem decide_eq_beq (a n : String) : decide (a = n) = (a == n) := by
  rw [Bool.eq_iff_iff]
  simp

/-- Membership in a one-longer accumulator. -/
theorem contains_append_singleton (acc : List String) (n a : String) :
    ((acc ++ [n]).contains a) = (acc.contains a || (a == n)) := by
  induction acc with
  | nil => simp [List.contains_cons, decide_eq_beq]
  | cons x xs ih => simp [List.contains_cons, ih, Bool.or_assoc, decide_eq_beq]

/-- Filtering out the members of `acc ++ [n]` filters out the members of
`acc` and then `n` itself. -/
theorem filter_contains_append (l acc : List String) (n : String) :
    l.filter (fun y => !(acc ++ [n]).contains y) =
      (l.filter (fun y => !acc.contains y)).filter (fun y => !(y == n)) := by
  rw [List.filter_filter]
  apply List.filter_congr
  intro a _
  rw [contains_append_singleton]
  cases acc.contains a <;> cases a == n <;> rfl

/-- The `Set`-insertion fold collects the matching names not yet in the
accumulator, first occurrence first. -/
theorem foldl_addLegacyName : ∀ (names acc : List String),
    names.foldl addLegacyName acc =
      acc ++ dedupKeepFirst ((names.filter legacyToolTest).filter (fun y => !acc.contains y)) := by
  intro names
  induction names with
  | nil => intro acc; simp [dedupKeepFirst]
  | cons n ns ih =>
    intro acc
    simp only [List.foldl_cons, addLegacyName]
    by_cases ht : legacyToolTest n = true
    · by_cases hmem : n ∈ acc
      · have hc : acc.contains n = true := by simpa using hmem
        rw [if_neg (by rw [ht, hc]; decide)]
        rw [ih acc, List.filter_cons, if_pos ht, List.filter_cons,
          if_neg (by rw [hc]; decide)]
      · have hc : acc.contains n = false := by simpa using hmem
        rw [if_pos (by rw [ht, hc]; decide)]
        rw [ih (acc ++ [n]), List.filter_cons, if_pos ht, List.filter_cons,
          if_pos (by rw [hc]; decide)]
        rw [dedupKeepFirst, filter_contains_append]
        simp
    · have ht2 : legacyToolTest n = false := by simpa using ht
      rw [if_neg (by simp [ht2])]
      rw [ih acc, List.filter_cons, if_neg (by simp [ht2])]

/-- The four-group scan is the single fold over the concatenated dependency
names. -/
theorem findLegacyTools_flatten (pkg : Manifest) :
    findLegacyTools pkg = (allDepNames pkg).foldl addLegacyName [] := by
  unfold findLegacyTools allDepNames
  have hgen : ∀ (fields : List String) (acc : List String),
      fields.foldl
        (fun acc field =>
          match getField pkg field with
          | some (JVal.jobj deps) => (deps.map (fun kv => kv.1)).foldl addLegacyName acc
          | _ => acc)
        acc =
      (fields.flatMap (fun field =>
        match getField pkg field with
        | some (JVal.jobj deps) => deps.map (fun kv => kv.1)
        | _ => [])).foldl addLegacyName acc := by
    intro fields
    induction fields with
    | nil => intro acc; simp
    | cons f fs ih =>
      intro acc
      simp only [List.foldl_cons, List.flatMap_cons, List.foldl_append]
      cases hf : getField pkg f with
      | none => dsimp only; rw [ih]; rfl
      | some v =>
        cases v <;> dsimp only <;> rw [ih] <;> rfl
  exact hgen dependencyFields []

/-- `findLegacyTools` returns exactly the matching dependency names,
deduplicated keeping first occurrences. -/
theorem findLegacyTools_eq_spec (pkg : Manifest) :
    findLegacyTools pkg = dedupKeepFirst ((allDepNames pkg).filter legacyToolTest) := by
  rw [findLegacyTools_flatten, foldl_addLegacyName]
  simp

/-! ## Manifest-field lemmas -/

/-- Reading back the key just written. -/
theorem getField_setField_self (l : List (String × JVal)) (k : String) (v : JVal) :
    getField (setField l k v) k = some v := by
  induction l with
  | nil => simp [setField, getField]
  | cons kv rest ih =>
    obtain ⟨k', v'⟩ := kv
    by_cases h : k' = k
    · simp [setField, getField, h]
    · simp [setField, getField, h, ih]

/-- Writing one key leaves every other key unchanged. -/
theorem getField_setField_ne (l : List (String × JVal)) (k k' : String) (v : JVal)
    (h : k' ≠ k) : getField (setField l k v) k' = getField l k' := by
  induction l with
  | nil => simp [setField, getField, Ne.symm h]
  | cons kv rest ih =>
    obtain ⟨k0, v0⟩ := kv
    by_cases h0 : k0 = k
    · subst h0
      simp [setField, getField, Ne.symm h]
    · simp [setField, getField, h0, ih]

/-- Deleting one key leaves every other key unchanged. -/
theorem getField_removeField_ne (l : List (String × JVal)) (k k' : String)
    (h : k' ≠ k) : getField (removeField l k) k' = getField l k' := by
  induction l with
  | nil => simp [removeField]
  | cons kv rest ih =>
    obtain ⟨k0, v0⟩ := kv
    by_cases h0 : k0 = k
    · subst h0
      simp [removeField, getField, Ne.symm h, ih]
    · simp [removeField, getField, h0, ih]

/-! ## Claim C1 -/

/-- Claim C1, counterexample.  The claim states the scrubber is idempotent on
every file content.  On the content `/*/* eslint-disable*/ eslint-disable*/`
the first application removes one occurrence (the inner block directive) and,
by deleting it, fuses the surrounding text into a fresh
`/* eslint-disable*/` block; the second application therefore removes one
further occurrence instead of zero, and changes the text again. -/
theorem scrub_second_pass_counterexample :
    (stripEslintCommentsFromContent "/*/* eslint-disable*/ eslint-disable*/").removedCount = 1 ∧
    (stripEslintCommentsFromContent
      (stripEslintCommentsFromContent
        "/*/* eslint-disable*/ eslint-disable*/").modified).removedCount = 1 ∧
    (stripEslintCommentsFromContent
      (stripEslintCommentsFromContent
        "/*/* eslint-disable*/ eslint-disable*/").modified).modified = "" := by
  decide

/-- Claim C1, amended.  The scrub transformation is not idempotent on all
contents (see the counterexample); it is idempotent on every content the
first application leaves unchanged: when the first application removes zero
occurrences it returns the text unchanged, and a second application again
removes zero occurrences and returns the same text. -/
theorem scrub_idempotent_on_unchanged_content (c : String)
    (h : (stripEslintCommentsFromContent c).removedCount = 0) :
    (stripEslintCommentsFromContent c).modified = c ∧
    (stripEslintCommentsFromContent
      ((stripEslintCommentsFromContent c).modified)).removedCount = 0 ∧
    (stripEslintCommentsFromContent
      ((stripEslintCommentsFromContent c).modified)).modified =
      (stripEslintCommentsFromContent c).modified := by
  have hm := strip_count_zero c h
  exact ⟨hm, by rw [hm]; exact h, by rw [hm]; exact hm⟩

/-- Witness for the amended claim C1 at a concrete directive-free content. -/
theorem scrub_idempotent_on_unchanged_content_witness :
    (stripEslintCommentsFromContent "const a = 1;\n").modified = "const a = 1;\n" ∧
    (stripEslintCommentsFromContent
      ((stripEslintCommentsFromContent "const a = 1;\n").modified)).removedCount = 0 :=
  ⟨(scrub_idempotent_on_unchanged_content "const a = 1;\n" (by decide)).1,
   (scrub_idempotent_on_unchanged_content "const a = 1;\n" (by decide)).2.1⟩

/-! ## Claim C2 -/

/-- Claim C2.  Whenever the local manifest parses and declares a
`packageManager` of the shape `name@version` with `name` one of the known
managers, detection returns exactly that profile — for every surrounding
file-system state, hence regardless of which lockfiles exist anywhere on the
chain. -/
theorem detect_declared_manager (fsc : FsChain) (name version : String) (pm : PmProfile)
    (hknown : lookupPm name = some (PmLookup.profile pm))
    (hdecl : fsc.cwd.pkgJson = ManifestRead.parsed (some (name ++ "@" ++ version))) :
    detectPackageManager fsc = PmLookup.profile pm := by
  have hid : idBefore (name ++ "@" ++ version) = name := by
    unfold lookupPm at hknown
    split at hknown <;>
      first
        | (split at hknown <;> simp_all)
        | simp [idBefore, String.data_append, List.takeWhile]
  simp [detectPackageManager, extractFromPackageManagerField, hdecl, hid, hknown]

/-- Witness for claim C2: Scenario A — a manifest declaring `pnpm@9.0.0`
with a `yarn.lock` present in the same directory and in an ancestor still
detects pnpm. -/
theorem detect_declared_manager_witness :
    detectPackageManager
      ⟨⟨["package.json", "yarn.lock"], ManifestRead.parsed (some "pnpm@9.0.0")⟩,
       [⟨["yarn.lock"], ManifestRead.parsed none⟩]⟩ =
      PmLookup.profile PACKAGE_MANAGERS_pnpm :=
  detect_declared_manager _ "pnpm" "9.0.0" _ rfl rfl

/-! ## Claim C3 -/

/-- Claim C3, counterexample.  The claim says the nearest lockfile wins, with
priority only breaking ties at equal distance.  With `yarn.lock` in the
working directory (distance 0) and `pnpm-lock.yaml` only in the parent
(distance 1) and no manifest declarations anywhere, the code returns pnpm,
not the claimed yarn: the loop is priority-major, not distance-major. -/
theorem detect_nearest_lockfile_counterexample :
    detectPackageManager
        ⟨⟨["yarn.lock"], ManifestRead.unreadable⟩,
         [⟨["pnpm-lock.yaml"], ManifestRead.unreadable⟩]⟩ =
      PmLookup.profile PACKAGE_MANAGERS_pnpm ∧
      detectPackageManager
        ⟨⟨["yarn.lock"], ManifestRead.unreadable⟩,
         [⟨["pnpm-lock.yaml"], ManifestRead.unreadable⟩]⟩ ≠
      PmLookup.profile PACKAGE_MANAGERS_yarn := by
  refine ⟨rfl, fun h => ?_⟩
  rw [show detectPackageManager
        ⟨⟨["yarn.lock"], ManifestRead.unreadable⟩,
         [⟨["pnpm-lock.yaml"], ManifestRead.unreadable⟩]⟩ =
      PmLookup.profile PACKAGE_MANAGERS_pnpm from rfl] at h
  injection h with h2
  exact absurd (congrArg PmProfile.id h2) (by decide)

/-- Claim C3, amended.  When no manifest on the chain declares a
`packageManager` whose name part indexes the table to a truthy value —
neither one of the four manager names nor an inherited `Object.prototype`
member name such as `constructor` (which the code returns as-is instead of
falling through) — detection returns the first manager in the fixed
priority order pnpm, yarn, bun whose lockfile exists at any level of the
chain, the distance from the working directory playing no role, and npm
when no such lockfile exists. -/
theorem detect_no_declaration (fsc : FsChain)
    (h : ∀ d ∈ fsc.dirs, extractFromPackageManagerField d = none) :
    detectPackageManager fsc = PmLookup.profile (lockfilePriorityPick fsc.dirs) := by
  have hcwd : extractFromPackageManagerField fsc.cwd = none :=
    h fsc.cwd (by simp [FsChain.dirs])
  unfold detectPackageManager detectFallback
  rw [hcwd]
  cases hf : findUpwardsAux ["package.json"] fsc.dirs with
  | none =>
    dsimp only
    exact lockfileSearch_priority_wrapped fsc.dirs
  | some t =>
    obtain ⟨i, d, n⟩ := t
    cases i with
    | zero =>
      dsimp only
      exact lockfileSearch_priority_wrapped fsc.dirs
    | succ j =>
      dsimp only
      rw [h d (findUpwardsAux_mem hf)]
      exact lockfileSearch_priority_wrapped fsc.dirs

/-- Witness for the amended claim C3: no declarations, a `yarn.lock` one
level up and no other lockfile — detection returns yarn. -/
theorem detect_no_declaration_witness :
    detectPackageManager
        ⟨⟨[], ManifestRead.unreadable⟩, [⟨["yarn.lock"], ManifestRead.unreadable⟩]⟩ =
      PmLookup.profile PACKAGE_MANAGERS_yarn :=
  (detect_no_declaration
      ⟨⟨[], ManifestRead.unreadable⟩, [⟨["yarn.lock"], ManifestRead.unreadable⟩]⟩
      (by
        intro d hd
        simp only [FsChain.dirs, List.mem_cons, List.not_mem_nil, or_false] at hd
        rcases hd with rfl | rfl <;> rfl)).trans rfl

/-! ## Claim C4 -/

/-- Claim C4.  A scrub that removes zero occurrences returns the content
byte-identical; across a walk, the files-touched counter equals the number
of processed code files whose aggregate pattern count is positive; and the
tree after the walk is the spec-side rewrite, which replaces content only
for processed code files with a positive count (zero-match files are left
as on disk, not rewritten). -/
theorem scrub_zero_matches_untouched (c : String) (es : List FsEntry) :
    ((stripEslintCommentsFromContent c).removedCount = 0 →
      (stripEslintCommentsFromContent c).modified = c) ∧
    (walkList es).1.filesTouched =
      ((visibleFiles es).filter fun f =>
        0 < (stripEslintCommentsFromContent f).removedCount).length ∧
    (walkList es).2 = specRewrite es := by
  refine ⟨strip_count_zero c, ?_, ?_⟩
  · rw [walkList_eq_spec]
  · rw [walkList_eq_spec]

/-- Witness for claim C4 at a concrete directive-free content. -/
theorem scrub_zero_matches_untouched_witness :
    (stripEslintCommentsFromContent "let x = 2\n").modified = "let x = 2\n" :=
  (scrub_zero_matches_untouched "let x = 2\n" []).1 (by decide)

/-! ## Claim C5 -/

/-- Claim C5.  Emptying every ignored directory (at any depth) does not
change any of the three walk counters — so nothing beneath an ignored
directory is ever scanned, counted as modified, or counted in occurrences —
and the tree after the walk agrees with the input tree exactly beneath
every ignored directory, so no such file is ever rewritten. -/
theorem walk_skips_ignored_directories (es : List FsEntry) :
    (walkList (pruneList es)).1 = (walkList es).1 ∧
    sameUnderIgnored es (walkList es).2 = true := by
  constructor
  · rw [walkList_eq_spec, walkList_eq_spec, visibleFiles_prune]
  · rw [walkList_eq_spec]
    exact sameUnderIgnored_specRewrite es

/-! ## Claim C6 -/

/-- Claim C6, counterexample.  The claim asserts count exactly 1 for every
file containing `// eslint-disable-next-line no-unused-vars` on its own
line; a file containing the line twice reports 2. -/
theorem scrub_directive_line_count_counterexample :
    (stripEslintCommentsFromContent
      "// eslint-disable-next-line no-unused-vars\n// eslint-disable-next-line no-unused-vars\n").removedCount = 2 := by
  decide

/-- Claim C6, amended.  For a file containing the directive line once (and
no other directive text) the scrub deletes the characters of the line and
reports count exactly 1; the terminating newline of the line is not part of
the match, so an empty line remains.  A file whose whole content is the
directive itself becomes empty.  Each further occurrence adds to the
count. -/
theorem scrub_directive_line_scenario :
    stripEslintCommentsFromContent
        "const a = 1\n// eslint-disable-next-line no-unused-vars\nconst b = 2\n" =
      { modified := "const a = 1\n\nconst b = 2\n", removedCount := 1 } ∧
    stripEslintCommentsFromContent "// eslint-disable-next-line no-unused-vars" =
      { modified := "", removedCount := 1 } := by
  decide

/-! ## Claim C7 -/

/-- Claim C7.  `findLegacyTools` returns exactly the dependency names from
the four groups that case-insensitively contain `eslint` or `prettier`,
with duplicates collapsed keeping first occurrences, in group-then-key
order; in particular, Scenario D — devDependencies `eslint` and
`eslint-config-foo` — returns both names. -/
theorem findLegacyTools_spec (pkg : Manifest) :
    findLegacyTools pkg = dedupKeepFirst ((allDepNames pkg).filter legacyToolTest) ∧
    findLegacyTools
        [("devDependencies", JVal.jobj
          [("eslint", JVal.jstr "^8.0.0"), ("eslint-config-foo", JVal.jstr "^1.0.0")])] =
      ["eslint", "eslint-config-foo"] :=
  ⟨findLegacyTools_eq_spec pkg, by decide⟩

/-! ## Claim C8 -/

/-- Claim C8.  Legacy-config cleanup changes no top-level key other than
`eslintConfig` and `prettier`; script updating changes no top-level key
other than `scripts`, and inside `scripts` changes no entry other than
`lint`, `lint:fix` and `type-check` — every other field present before is
present with the same value after. -/
theorem manifest_mutations_frame (pkg : Manifest) (k : String) (ts : Bool) :
    ((k ≠ "eslintConfig" ∧ k ≠ "prettier") →
      getField (cleanEslintPrettierConfig pkg).2 k = getField pkg k) ∧
    (k ≠ "scripts" →
      getField (updatePackageJsonScripts ts pkg) k = getField pkg k) ∧
    (∀ s0, getField pkg "scripts" = some (JVal.jobj s0) →
      (k ≠ "lint" ∧ k ≠ "lint:fix" ∧ k ≠ "type-check") →
      ∃ s1, getField (updatePackageJsonScripts ts pkg) "scripts" = some (JVal.jobj s1) ∧
        getField s1 k = getField s0 k) := by
  refine ⟨?_, ?_, ?_⟩
  · rintro ⟨h1, h2⟩
    unfold cleanEslintPrettierConfig
    by_cases hA : truthyOpt (getField pkg "eslintConfig") = true <;>
      by_cases hB : truthyOpt (getField (removeField pkg "eslintConfig") "prettier") = true <;>
        by_cases hC : truthyOpt (getField pkg "prettier") = true <;>
          simp [hA, hB, hC, getField_removeField_ne _ _ _ h1, getField_removeField_ne _ _ _ h2]
  · intro h
    unfold updatePackageJsonScripts
    exact getField_setField_ne _ _ _ _ h
  · rintro s0 hs ⟨h1, h2, h3⟩
    unfold updatePackageJsonScripts
    rw [hs]
    dsimp only
    refine ⟨_, getField_setField_self _ _ _, ?_⟩
    cases hts : isTypescriptProject ts pkg <;>
      simp only [hts, Bool.false_eq_true, if_false, if_true, ite_true, ite_false] <;>
        rw [getField_setField_ne _ _ _ _ h2, getField_setField_ne _ _ _ _ h1]
    rw [getField_setField_ne _ _ _ _ h3]

/-- Witness for claim C8: cleanup of a concrete manifest preserves its
`name` field while the mutation targets get removed and set. -/
theorem manifest_mutations_frame_witness :
    getField (cleanEslintPrettierConfig
      [("name", JVal.jstr "demo"), ("eslintConfig", JVal.jobj []),
       ("prettier", JVal.jobj []), ("scripts", JVal.jobj [("test", JVal.jstr "jest")])]).2
      "name" = some (JVal.jstr "demo") :=
  ((manifest_mutations_frame
      [("name", JVal.jstr "demo"), ("eslintConfig", JVal.jobj []),
       ("prettier", JVal.jobj []), ("scripts", JVal.jobj [("test", JVal.jstr "jest")])]
      "name" false).1 ⟨by decide, by decide⟩).trans rfl

/-! ## Claim C9 -/

/-- Claim C9.  A missing manifest makes `readPackageJson` fail with the
user-reported `CliError` (not an unexpected error), and the catch block of
`main` exits with code 1; a malformed manifest likewise fails with a
`CliError` whose message embeds the underlying parse-failure message, again
exiting with code 1. -/
theorem readPackageJson_error_classification (m : String) :
    readPackageJson PkgFileState.absent =
      Except.error (MigError.cliError
        "No package.json found. Please run this command in your project root.") ∧
    handleMainError (MigError.cliError
      "No package.json found. Please run this command in your project root.") = (true, 1) ∧
    readPackageJson (PkgFileState.malformed m) =
      Except.error (MigError.cliError ("Could not read or parse package.json: " ++ m)) ∧
    handleMainError
      (MigError.cliError ("Could not read or parse package.json: " ++ m)) = (true, 1) :=
  ⟨rfl, rfl, rfl, rfl⟩

/-! ## Claim C10 -/

/-- Claim C10, counterexample.  The claim asserts detection always returns
one of the four known profiles and that a declared name that is not a known
manager is ignored.  `PACKAGE_MANAGERS[id]` is an unguarded property access
on a plain object literal, so a manifest declaring
`"packageManager": "constructor@1.0.0"` hits the truthy `constructor`
inherited from `Object.prototype`: detection returns that non-profile value
and does not fall through — not even to the `pnpm-lock.yaml` sitting right
in the working directory. -/
theorem detect_inherited_member_counterexample :
    detectPackageManager
        ⟨⟨["package.json", "pnpm-lock.yaml"],
          ManifestRead.parsed (some "constructor@1.0.0")⟩, []⟩ =
      PmLookup.protoMember "constructor" ∧
    (detectPackageManager
        ⟨⟨["package.json", "pnpm-lock.yaml"],
          ManifestRead.parsed (some "constructor@1.0.0")⟩, []⟩).isProfile = false :=
  ⟨rfl, rfl⟩

/-- Claim C10, amended.  Detection is total and never raises: for every
file-system state it returns either one of the four fixed profiles or a
truthy `Object.prototype` member that some manifest on the chain declared as
its package-manager name; when no manifest on the chain declares such an
inherited-member name, the result is one of the four profiles.  An
unreadable or unparseable local manifest is silently skipped, as is a
parsed manifest without a usable field or one whose declared name indexes
the table to nothing at all — those fall through to the ancestor, lockfile
and npm-default steps; a declared inherited-member name is returned as-is
instead of being ignored. -/
theorem detect_total_and_fallthrough (fsc : FsChain) :
    ((detectPackageManager fsc = PmLookup.profile PACKAGE_MANAGERS_pnpm ∨
      detectPackageManager fsc = PmLookup.profile PACKAGE_MANAGERS_yarn ∨
      detectPackageManager fsc = PmLookup.profile PACKAGE_MANAGERS_bun ∨
      detectPackageManager fsc = PmLookup.profile PACKAGE_MANAGERS_npm) ∨
     (∃ m, m ∈ OBJECT_PROTOTYPE_MEMBERS ∧
       detectPackageManager fsc = PmLookup.protoMember m)) ∧
    ((∀ d ∈ fsc.dirs, ∀ m,
        extractFromPackageManagerField d ≠ some (PmLookup.protoMember m)) →
      (detectPackageManager fsc = PmLookup.profile PACKAGE_MANAGERS_pnpm ∨
       detectPackageManager fsc = PmLookup.profile PACKAGE_MANAGERS_yarn ∨
       detectPackageManager fsc = PmLookup.profile PACKAGE_MANAGERS_bun ∨
       detectPackageManager fsc = PmLookup.profile PACKAGE_MANAGERS_npm)) ∧
    (fsc.cwd.pkgJson = ManifestRead.unreadable →
      detectPackageManager fsc = detectFallback fsc) ∧
    (fsc.cwd.pkgJson = ManifestRead.parsed none →
      detectPackageManager fsc = detectFallback fsc) ∧
    (∀ s, fsc.cwd.pkgJson = ManifestRead.parsed (some s) →
      lookupPm (idBefore s) = none →
      detectPackageManager fsc = detectFallback fsc) := by
  refine ⟨?_, ?_, ?_, ?_, ?_⟩
  · rcases detect_cases fsc with h4 | ⟨d, hd, m, hm, hex, hdet⟩
    · exact Or.inl h4
    · exact Or.inr ⟨m, hm, hdet⟩
  · intro hnp
    rcases detect_cases fsc with h4 | ⟨d, hd, m, hm, hex, hdet⟩
    · exact h4
    · exact absurd hex (hnp d hd m)
  · intro h
    exact detect_skips_bad_local fsc (by simp [extractFromPackageManagerField, h])
  · intro h
    exact detect_skips_bad_local fsc (by simp [extractFromPackageManagerField, h])
  · intro s h1 h2
    exact detect_skips_bad_local fsc (by simp [extractFromPackageManagerField, h1, h2])

/-- Witness for the amended claim C10: on a state whose only manifest is
unreadable, the no-inherited-name hypothesis holds and detection is one of
the four profiles, and the unreadable manifest makes detection equal its
fallback chain. -/
theorem detect_total_and_fallthrough_witness :
    (detectPackageManager ⟨⟨[], ManifestRead.unreadable⟩, []⟩ =
        PmLookup.profile PACKAGE_MANAGERS_pnpm ∨
      detectPackageManager ⟨⟨[], ManifestRead.unreadable⟩, []⟩ =
        PmLookup.profile PACKAGE_MANAGERS_yarn ∨
      detectPackageManager ⟨⟨[], ManifestRead.unreadable⟩, []⟩ =
        PmLookup.profile PACKAGE_MANAGERS_bun ∨
      detectPackageManager ⟨⟨[], ManifestRead.unreadable⟩, []⟩ =
        PmLookup.profile PACKAGE_MANAGERS_npm) ∧
    detectPackageManager ⟨⟨[], ManifestRead.unreadable⟩, []⟩ =
      detectFallback ⟨⟨[], ManifestRead.unreadable⟩, []⟩ :=
  ⟨(detect_total_and_fallthrough ⟨⟨[], ManifestRead.unreadable⟩, []⟩).2.1
      (by
        intro d hd m
        simp only [FsChain.dirs, List.mem_cons, List.not_mem_nil, or_false] at hd
        subst hd
        simp [extractFromPackageManagerField]),
   (detect_total_and_fallthrough ⟨⟨[], ManifestRead.unreadable⟩, []⟩).2.2.1 rfl⟩

end BiomeSetup
